import Mathlib

/-!
Verification development for the `datafirst` market-basket-analysis
application: a React/TypeScript front end (file upload, column selection,
processing driver, results presentation) around an association-rule mining
core. The mining core itself (`backend/data_processors/basket_analyzer.py`)
is not part of the checked-in sources, so its data model and algorithms are
modelled from the specification (transaction encoder, Apriori-style
frequent-itemset miner, rule generator, metric calculator, ranker); every
definition so modelled says so in its doc comment. The front-end components
(`ColumnSelector.tsx`, `DataProcessor.tsx`, `ResultsDownload.tsx`, `App.tsx`)
are shallowly embedded from their TypeScript source.
-/

/-! ### Error taxonomy (§7 of the spec)

Modelled from the spec: `InvalidThresholdError` (a configuration value out
of its valid range), `EmptyInputError` (no usable transactions/items after
encoding), `Cancelled` (cooperative abort). Each carries a human-readable
detail string. -/

/-- Modelled from the spec: the core's terminal error kinds (§7), each with
a detail string. -/
inductive MBAError where
  | InvalidThresholdError (detail : String)
  | EmptyInputError (detail : String)
  | Cancelled (detail : String)
deriving DecidableEq

/-! ### Transaction Encoder (§4.1)

Modelled from the spec: the encoder's code is in the missing backend; the
definitions below follow §3/§4.1 word for word. Items get dense indices in
first-seen order; a transaction is the set of item indices it contains;
rows with empty or whitespace-only item labels are discarded as invalid;
transactions left with zero items are dropped; `EmptyInputError` exactly
when zero valid transactions or zero distinct items remain. -/

/-- JS-style whitespace characters used to recognise blank labels. -/
def isWsChar (c : Char) : Bool :=
  c = ' ' || c = '\t' || c = '\n' || c = '\r' || c = '\x0b' || c = '\x0c'

/-- A label is blank when it is empty or consists only of whitespace. -/
def isBlankLabel (s : String) : Bool :=
  s.toList.all isWsChar

/-- Modelled from the spec: rows whose item label is empty or
whitespace-only are discarded as invalid, not as errors (§4.1). -/
def validRows (pairs : List (String × String)) : List (String × String) :=
  pairs.filter (fun p => !isBlankLabel p.2)

/-- Append an element to an accumulator unless already present: builds a
duplicate-free list in first-seen order. -/
def addFirstSeen (acc : List String) (x : String) : List String :=
  if x ∈ acc then acc else acc ++ [x]

/-- Modelled from the spec: the item vocabulary, distinct item labels of the
valid rows indexed in first-seen order (§3). -/
def buildVocab (pairs : List (String × String)) : List String :=
  (validRows pairs).foldl (fun acc p => addFirstSeen acc p.2) []

/-- Modelled from the spec: the distinct transaction keys of the valid rows
in first-seen order. -/
def txKeys (pairs : List (String × String)) : List String :=
  (validRows pairs).foldl (fun acc p => addFirstSeen acc p.1) []

/-- Modelled from the spec: the set of item indices of one transaction, in
canonical (ascending-index) form; duplicates within a transaction collapse
to one occurrence (§3). -/
def txItems (pairs : List (String × String)) (vocab : List String)
    (k : String) : List Nat :=
  (List.range vocab.length).filter
    (fun i => (validRows pairs).any (fun p => p.1 = k && p.2 = vocab.getD i ""))

/-- Modelled from the spec: the indexed transactions; transactions with zero
items after encoding are dropped and do not count toward the transaction
total (§3). -/
def buildTransactions (pairs : List (String × String)) : List (List Nat) :=
  ((txKeys pairs).map (txItems pairs (buildVocab pairs))).filter
    (fun t => !t.isEmpty)

/-- Modelled from the spec: the Transaction Encoder's output — the item
vocabulary and the indexed transactions (§4.1). -/
structure EncodedInput where
  vocab : List String
  transactions : List (List Nat)
deriving DecidableEq

/-- Modelled from the spec: the Transaction Encoder (§4.1). Fails with
`EmptyInputError` exactly when, after filtering, zero valid transactions or
zero distinct items remain. -/
def encodeTransactions (pairs : List (String × String)) :
    Except MBAError EncodedInput :=
  let v := buildVocab pairs
  let ts := buildTransactions pairs
  if ts = [] ∨ v = [] then
    .error (.EmptyInputError "no usable transactions or items after encoding")
  else
    .ok ⟨v, ts⟩

/-! ### Support and the Frequent Itemset Miner (§3, §4.2)

Modelled from the spec. An itemset is kept in canonical form: item indices
sorted strictly ascending. Support of an itemset is the fraction of
transactions whose item set is a superset of it. -/

/-- Modelled from the spec: Support(itemset) = (number of transactions whose
item set is a superset of it) / (total transaction count) (§3). -/
def support (ts : List (List Nat)) (s : List Nat) : ℚ :=
  ((ts.countP (fun t => s.all (fun x => decide (x ∈ t)))) : ℚ) / (ts.length : ℚ)

/-- Modelled from the spec: the Apriori candidate join — two level-k
frequent itemsets sharing a common (k−1)-item prefix in canonical order,
with the last items in ascending order, join to a level-(k+1) candidate
(§4.2). -/
def joinPair (a b : List Nat) : Option (List Nat) :=
  match a.getLast?, b.getLast? with
  | some x, some y =>
      if a.dropLast = b.dropLast ∧ x < y then some (a ++ [y]) else none
  | _, _ => none

/-- Modelled from the spec: level-(k+1) candidates generated from the
level-k frequent itemsets by the prefix join, in ascending canonical
item-index order (§4.2). -/
def genCandidates (lk : List (List Nat)) : List (List Nat) :=
  lk.flatMap (fun a => lk.filterMap (fun b => joinPair a b))

/-- Modelled from the spec: the Apriori pruning check — a candidate is
tested only if all its immediate (one-item-smaller) subsets are already
known frequent (§4.2). -/
def pruneOK (lk : List (List Nat)) (c : List Nat) : Bool :=
  (List.range c.length).all (fun i => decide (c.eraseIdx i ∈ lk))

/-- Modelled from the spec: one level step of the miner — generate
candidates from the previous frequent level, prune those with a
non-frequent immediate subset, keep those meeting `min_support` (§4.2). -/
def nextLevel (ts : List (List Nat)) (ms : ℚ) (lk : List (List Nat)) :
    List (List Nat) :=
  ((genCandidates lk).filter (pruneOK lk)).filter
    (fun c => decide (ms ≤ support ts c))

/-- Modelled from the spec: the k-th level of the Apriori search (1-based).
Level 1 holds all single items meeting `min_support`, in ascending item
order; level k+1 is `nextLevel` of level k (§4.2). -/
def aprioriLevel (ts : List (List Nat)) (v : Nat) (ms : ℚ) : Nat → List (List Nat)
  | 0 => []
  | 1 => ((List.range v).map (fun i => [i])).filter
      (fun s => decide (ms ≤ support ts s))
  | k + 2 => nextLevel ts ms (aprioriLevel ts v ms (k + 1))

/-- Modelled from the spec: the miner's output — one (itemset, support)
pair per frequent itemset found at any level 1..maxSize, level-1 itemsets
retained (§4.2). -/
def mineItemsets (ts : List (List Nat)) (v : Nat) (ms : ℚ) (maxSize : Nat) :
    List (List Nat × ℚ) :=
  ((List.range' 1 maxSize).flatMap (aprioriLevel ts v ms)).map
    (fun s => (s, support ts s))

/-- Modelled from the spec: the Frequent Itemset Miner entry point. Fails
with `InvalidThresholdError` if `min_support` ≤ 0 or > 1, performing no
computation in that case (§4.2). -/
def mineFrequentItemsets (ts : List (List Nat)) (v : Nat) (ms : ℚ)
    (maxSize : Nat) : Except MBAError (List (List Nat × ℚ)) :=
  if 0 < ms ∧ ms ≤ 1 then .ok (mineItemsets ts v ms maxSize)
  else .error (.InvalidThresholdError "min_support must be in (0, 1]")

/-! ### Rule Generator and Metric Calculator (§4.3, §4.4)

Modelled from the spec. For every frequent itemset of size ≥ 2, every
non-empty proper antecedent subset yields a candidate rule; the rule is
emitted when confidence meets `min_confidence`. Metrics follow §3 exactly;
conviction at confidence 1 is the sentinel `none`, never a division. -/

/-- Modelled from the spec: a scored rule — antecedent, consequent, and the
four metrics; conviction `none` is the "undefined/infinite" sentinel (§3). -/
structure ScoredRule where
  antecedent : List Nat
  consequent : List Nat
  support : ℚ
  confidence : ℚ
  lift : ℚ
  conviction : Option ℚ
deriving DecidableEq

/-- Modelled from the spec: conviction = (1 − support(consequent)) /
(1 − confidence), represented as the sentinel `none` when confidence = 1,
never a computed division by zero (§3, §4.4). -/
def convictionOf (conf suppC : ℚ) : Option ℚ :=
  if conf = 1 then none else some ((1 - suppC) / (1 - conf))

/-- The non-empty proper subsets of a canonical itemset, themselves in
canonical form (sublists of a sorted list are sorted). -/
def properSubsets (s : List Nat) : List (List Nat) :=
  s.sublists.filter (fun a => !a.isEmpty && a ≠ s)

/-- Modelled from the spec: the rules derived from one frequent itemset
`s` with support `supS` — every non-empty proper antecedent `a` with
consequent `s \ a`; antecedent support is looked up from the already
computed results, a zero or missing antecedent support is skipped
defensively, and the rule is emitted only when confidence ≥
`min_confidence` (§4.3, §4.4). -/
def rulesOfItemset (itemsets : List (List Nat × ℚ)) (mc : ℚ)
    (s : List Nat) (supS : ℚ) : List ScoredRule :=
  if s.length < 2 then []
  else
    (properSubsets s).filterMap (fun a =>
      match itemsets.lookup a with
      | none => none
      | some supA =>
        if supA = 0 then none
        else
          let conf := supS / supA
          if mc ≤ conf then
            let c := s.filter (fun x => decide (x ∉ a))
            let supC := (itemsets.lookup c).getD 0
            some { antecedent := a, consequent := c, support := supS,
                   confidence := conf, lift := conf / supC,
                   conviction := convictionOf conf supC }
          else none)

/-- Modelled from the spec: all rules of all frequent itemsets of size ≥ 2
(§4.3). -/
def rulesFrom (itemsets : List (List Nat × ℚ)) (mc : ℚ) : List ScoredRule :=
  itemsets.flatMap (fun p => rulesOfItemset itemsets mc p.1 p.2)

/-- Modelled from the spec: the Rule Generator entry point. Fails with
`InvalidThresholdError` if `min_confidence` ∉ [0,1], performing no
computation in that case (§4.3). -/
def generateRules (itemsets : List (List Nat × ℚ)) (mc : ℚ) :
    Except MBAError (List ScoredRule) :=
  if 0 ≤ mc ∧ mc ≤ 1 then .ok (rulesFrom itemsets mc)
  else .error (.InvalidThresholdError "min_confidence must be in [0, 1]")

/-! ### Ranker & Result Assembler (§4.5)

Modelled from the spec. Rules are sorted by lift descending, ties by
confidence descending, then support descending, final tie by antecedent
canonical-form lexical order; itemsets by support descending then canonical
form. The descending keys are encoded by negation so that the whole
comparator is one ascending lexicographic comparison of key lists. -/

/-- Ascending lexicographic comparison of two key lists: `true` when the
first is less than or equal to the second in lexical order. -/
def lexLE {α : Type} [LinearOrder α] : List α → List α → Bool
  | [], _ => true
  | _ :: _, [] => false
  | a :: as, b :: bs => if a < b then true else if b < a then false else lexLE as bs

/-- Modelled from the spec: a rule's sort key — lift descending, confidence
descending, support descending (all encoded by negation), then the
antecedent's canonical form (§4.5). -/
def ruleKeyL (r : ScoredRule) : List ℚ :=
  -r.lift :: -r.confidence :: -r.support :: r.antecedent.map (fun i => (i : ℚ))

/-- The rule ordering of §4.5 as a relation: `a` precedes or ties `b`. -/
def ruleLEP (a b : ScoredRule) : Prop := lexLE (ruleKeyL a) (ruleKeyL b) = true

instance : DecidableRel ruleLEP := fun a b =>
  inferInstanceAs (Decidable (_ = true))

/-- Modelled from the spec: an itemset's sort key — support descending then
canonical form (§4.5). -/
def itemsetKeyL (p : List Nat × ℚ) : List ℚ :=
  -p.2 :: p.1.map (fun i => (i : ℚ))

/-- The itemset ordering of §4.5 as a relation. -/
def itemsetLEP (a b : List Nat × ℚ) : Prop :=
  lexLE (itemsetKeyL a) (itemsetKeyL b) = true

instance : DecidableRel itemsetLEP := fun a b =>
  inferInstanceAs (Decidable (_ = true))

/-- Modelled from the spec: the sorted rule sequence (§4.5), via a stable
insertion sort under the §4.5 comparator. -/
def sortRules (rs : List ScoredRule) : List ScoredRule :=
  List.insertionSort ruleLEP rs

/-- Modelled from the spec: the sorted itemset sequence (§4.5). -/
def sortItemsets (its : List (List Nat × ℚ)) : List (List Nat × ℚ) :=
  List.insertionSort itemsetLEP its

/-- Modelled from the spec: a rule of the final Report — 1-based rank,
antecedent and consequent as label lists, and the four metrics (§6). -/
structure RankedRule where
  rank : Nat
  antecedent : List String
  consequent : List String
  support : ℚ
  confidence : ℚ
  lift : ℚ
  conviction : Option ℚ
deriving DecidableEq

/-- The label of item index `i` in the vocabulary. -/
def labelOf (vocab : List String) (i : Nat) : String := vocab.getD i ""

/-- Modelled from the spec: sort the rules by the §4.5 comparator and assign
each its 1-based rank in that order (§4.5). -/
def rankRules (vocab : List String) (rs : List ScoredRule) : List RankedRule :=
  (sortRules rs).enum.map (fun p =>
    { rank := p.1 + 1,
      antecedent := p.2.antecedent.map (labelOf vocab),
      consequent := p.2.consequent.map (labelOf vocab),
      support := p.2.support, confidence := p.2.confidence,
      lift := p.2.lift, conviction := p.2.conviction })

/-- Modelled from the spec: the final immutable Report — summary counters,
ordered itemsets, ordered ranked rules, and the optional single-item-rules
reporting view (§3, §6). -/
structure Report where
  transaction_count : Nat
  item_count : Nat
  itemsets : List (List String × ℚ)
  rules : List RankedRule
  single_item_rules : List RankedRule
deriving DecidableEq

/-- Modelled from the spec: the Ranker & Result Assembler — pure assembly,
no recomputation of metrics (§4.5). -/
def assembleReport (enc : EncodedInput) (itemsets : List (List Nat × ℚ))
    (rules : List ScoredRule) (includeSingle : Bool) : Report :=
  let ranked := rankRules enc.vocab rules
  { transaction_count := enc.transactions.length,
    item_count := enc.vocab.length,
    itemsets := (sortItemsets itemsets).map
      (fun p => (p.1.map (labelOf enc.vocab), p.2)),
    rules := ranked,
    single_item_rules :=
      if includeSingle then ranked.filter (fun r => decide (r.antecedent.length = 1))
      else [] }

/-- Modelled from the spec: the configuration accepted by the core (§6). -/
structure Config where
  min_support : ℚ
  min_confidence : ℚ
  max_itemset_size : Option Nat
  include_single_item_rules : Bool
deriving DecidableEq

/-- Modelled from the spec: the whole pipeline — encode, mine, generate
rules, rank and assemble, in strict sequence; either a complete Report or
one error kind (§2, §5, §7). -/
def runPipeline (pairs : List (String × String)) (cfg : Config) :
    Except MBAError Report :=
  match encodeTransactions pairs with
  | .error e => .error e
  | .ok enc =>
    match mineFrequentItemsets enc.transactions enc.vocab.length
        cfg.min_support (cfg.max_itemset_size.getD enc.vocab.length) with
    | .error e => .error e
    | .ok itemsets =>
      match generateRules itemsets cfg.min_confidence with
      | .error e => .error e
      | .ok rules =>
        .ok (assembleReport enc itemsets rules cfg.include_single_item_rules)

/-- Round a rational to `d` decimal digits (ties to the larger value, as
JS `toFixed` does): used to relate the spec's three-digit scenario numbers
to the exact supports. -/
def roundTo (d : Nat) (q : ℚ) : ℚ :=
  (round (q * (10 : ℚ) ^ d) : ℤ) / (10 : ℚ) ^ d

/-! ### Results presentation (`ResultsDownload.tsx`)

Embedded from the source. `formatDecimal` takes a dynamically typed value;
null/undefined render as "-", a finite number (or a string that coerces to
a finite number) renders with `toFixed`, anything else renders as its
string form. `topRules` takes the first 15 rows of the rules table as-is. -/

/-- A JavaScript number: finite (exact rational stand-in for the double),
NaN, or an infinity. -/
inductive JSNumber where
  | finite (q : ℚ)
  | nan
  | posInf
  | negInf
deriving DecidableEq

/-- A dynamically typed JavaScript value as `formatDecimal` receives it. -/
inductive JSValue where
  | num (n : JSNumber)
  | str (s : String)
  | nullV
  | undefinedV
deriving DecidableEq

/-- Digits of a numeral, most significant first, folded to a natural. -/
def digitsToNat (cs : List Char) : Nat :=
  cs.foldl (fun a c => a * 10 + (c.toNat - '0'.toNat)) 0

/-- Non-empty and all decimal digits. -/
def allDigits (cs : List Char) : Bool :=
  !cs.isEmpty && cs.all (fun c => c.isDigit)

/-- Split a character list at the first '.' if any: the integer part and,
when a dot is present, the fractional part. -/
def splitAtDot : List Char → List Char × Option (List Char)
  | [] => ([], none)
  | c :: rest =>
      if c = '.' then ([], some rest)
      else
        let p := splitAtDot rest
        (c :: p.1, p.2)

/-- Parse an unsigned decimal numeral (digits, optionally digits.digits)
into a rational. -/
def parseDecimal (cs : List Char) : Option ℚ :=
  match splitAtDot cs with
  | (intPart, none) =>
      if allDigits intPart then some (digitsToNat intPart : ℚ) else none
  | (intPart, some fracPart) =>
      if allDigits intPart && allDigits fracPart then
        some ((digitsToNat intPart : ℚ) +
          (digitsToNat fracPart : ℚ) / (10 : ℚ) ^ fracPart.length)
      else none

/-- Drop leading and trailing whitespace from a character list. -/
def trimChars (cs : List Char) : List Char :=
  ((cs.dropWhile isWsChar).reverse.dropWhile isWsChar).reverse

/-- The JavaScript `Number(string)` coercion, on the fragment of string
shapes this application can receive: whitespace is trimmed, the empty
string is 0, "Infinity" forms are infinite, an optionally signed decimal
numeral is finite, and anything else (such as "undefined") is NaN.
Exponent and hex forms, which never occur here, parse as NaN. -/
def jsStringToNumber (s : String) : JSNumber :=
  let t := trimChars s.toList
  if t = [] then .finite 0
  else if t = "Infinity".toList || t = "+Infinity".toList then .posInf
  else if t = "-Infinity".toList then .negInf
  else
    match t with
    | '-' :: rest =>
        match parseDecimal rest with
        | some q => .finite (-q)
        | none => .nan
    | '+' :: rest =>
        match parseDecimal rest with
        | some q => .finite q
        | none => .nan
    | _ =>
        match parseDecimal t with
        | some q => .finite q
        | none => .nan

/-- Left-pad a numeral string with zeros to width `w`. -/
def padZeros (s : String) (w : Nat) : String :=
  String.mk (List.replicate (w - s.length) '0') ++ s

/-- The JavaScript `Number.prototype.toFixed`: round to `digits` decimal
places (ties to the larger value) and print with exactly that many
decimals. -/
def toFixedString (q : ℚ) (digits : Nat) : String :=
  let scaled : ℤ := round (q * (10 : ℚ) ^ digits)
  let n := scaled.natAbs
  let intPart := n / 10 ^ digits
  let fracPart := n % 10 ^ digits
  let sign := if scaled < 0 then "-" else ""
  if digits = 0 then sign ++ toString intPart
  else sign ++ toString intPart ++ "." ++ padZeros (toString fracPart) digits

/-- The JavaScript `String(value)` form of the values `formatDecimal` can
reach in its fallback branch. -/
def jsStringOf : JSValue → String
  | .num (.finite q) => toString q
  | .num .nan => "NaN"
  | .num .posInf => "Infinity"
  | .num .negInf => "-Infinity"
  | .str s => s
  | .nullV => "null"
  | .undefinedV => "undefined"

/-- Embedded from `ResultsDownload.tsx` (`formatDecimal`): null/undefined
render "-"; a string is coerced with `Number`; a finite numeric value
renders with `toFixed(digits)`; any other value renders as its string
form. -/
def formatDecimal (value : JSValue) (digits : Nat) : String :=
  match value with
  | .nullV => "-"
  | .undefinedV => "-"
  | .num n =>
      match n with
      | .finite q => toFixedString q digits
      | other => jsStringOf (.num other)
  | .str s =>
      match jsStringToNumber s with
      | .finite q => toFixedString q digits
      | _ => s

/-- Embedded from `ResultsDownload.tsx` (`topRules`): the preview table
shows `results.rulesTable.slice(0, 15)` in the given order. -/
def topRules {α : Type} (rulesTable : List α) : List α :=
  rulesTable.take 15

/-! ### Processing driver (`DataProcessor.tsx`)

Embedded from the source. `processDataWithBackend` posts to the backend;
on a non-ok response it throws `Error(errorData.error || 'Processing
failed')`; any thrown error is caught and stored as the error message (a
non-`Error` throw falls back to a fixed message); on success the download
URLs default to `{}` when `result.outputFiles` is absent and
`onProcessingComplete(result, downloadUrls)` is invoked once. -/

/-- The backend's successful JSON result as the driver consumes it: an
opaque payload plus the optional `outputFiles` map. -/
structure BackendResult where
  payload : String
  outputFiles : Option (List (String × String))
deriving DecidableEq

/-- One invocation's interaction with `fetch`: a successful response, a
non-ok HTTP response whose parsed body optionally carries an `error`
field, or a thrown failure (an `Error` carries its message; `none` stands
for a thrown non-`Error` value). -/
inductive FetchOutcome where
  | ok (result : BackendResult)
  | httpError (errorField : Option String)
  | thrown (message : Option String)
deriving DecidableEq

/-- The driver's observable final state: the stored error message, the
completion flag, and the list of `onProcessingComplete` invocations (each
with the full result and the download URLs handed on). -/
structure ProcessorFinalState where
  error : Option String
  isComplete : Bool
  completions : List (BackendResult × List (String × String))
deriving DecidableEq

/-- Embedded from `DataProcessor.tsx` (`processDataWithBackend`): on
success, complete once with the full result and its download URLs
(`result.outputFiles || {}`); on a non-ok response, surface
`errorData.error || 'Processing failed'`; on a thrown error, surface its
message or the fixed fallback; in every failure case no result is handed
on. -/
def processDataWithBackend : FetchOutcome → ProcessorFinalState
  | .ok result =>
      { error := none, isComplete := true,
        completions := [(result, result.outputFiles.getD [])] }
  | .httpError errorField =>
      { error := some (errorField.getD "Processing failed"),
        isComplete := false, completions := [] }
  | .thrown message =>
      { error := some (message.getD "An unexpected error occurred"),
        isComplete := false, completions := [] }

/-! ### Column selector (`ColumnSelector.tsx`)

Embedded from the source. `selectedColumns` is a list of column indices;
`toggleColumn` removes a present index (filter) and appends an absent one;
`selectAllColumns` toggles between every index and none; `handleProceed`
invokes `onColumnsSelected` only when the selection is non-empty. -/

/-- Embedded from `ColumnSelector.tsx` (`toggleColumn`). -/
def toggleColumn (sel : List Nat) (columnIndex : Nat) : List Nat :=
  if columnIndex ∈ sel then sel.filter (fun i => decide (i ≠ columnIndex))
  else sel ++ [columnIndex]

/-- Embedded from `ColumnSelector.tsx` (`selectAllColumns`): when all
`headers.length` columns are selected, clear; otherwise select every
column index. -/
def selectAllColumns (sel : List Nat) (headersLength : Nat) : List Nat :=
  if sel.length = headersLength then [] else List.range headersLength

/-- Embedded from `ColumnSelector.tsx` (`handleProceed`): the
`onColumnsSelected` callback receives the selection only when it is
non-empty (`some`), otherwise nothing happens (`none`). -/
def handleProceed (sel : List Nat) : Option (List Nat) :=
  if sel.length > 0 then some sel else none

/-- The column-selector invariant: a duplicate-free list of column indices
each below the header count. -/
def validSelection (headersLength : Nat) (sel : List Nat) : Prop :=
  sel.Nodup ∧ ∀ i ∈ sel, i < headersLength

instance (n : Nat) (sel : List Nat) : Decidable (validSelection n sel) :=
  inferInstanceAs (Decidable (_ ∧ _))

/-! ### Application stage machine (`App.tsx`)

Embedded from the source. The wizard stages, the six stored data fields,
`goBackToPreviousStep`'s switch, and `resetToStart`. -/

/-- Embedded from `App.tsx` (`AppStage`). -/
inductive AppStage where
  | landing
  | upload
  | select
  | process
  | download
deriving DecidableEq

/-- Embedded from `App.tsx`: the component state — the current stage and
the six stored data fields. A `File` is stood for by its name. -/
structure AppState where
  currentStage : AppStage
  uploadedFile : Option String
  uploadedFileName : String
  excelData : List (List String)
  selectedColumns : List Nat
  processedData : Option String
  downloadUrls : List (String × String)
deriving DecidableEq

/-- Embedded from `App.tsx`: the initial state of every `useState`. -/
def initialAppState : AppState :=
  { currentStage := .landing, uploadedFile := none, uploadedFileName := "",
    excelData := [], selectedColumns := [], processedData := none,
    downloadUrls := [] }

/-- Embedded from `App.tsx` (`goBackToPreviousStep`): the switch moves each
stage to its predecessor and the `default` branch leaves the state
unchanged; only `currentStage` is written. -/
def goBackToPreviousStep (s : AppState) : AppState :=
  { s with currentStage :=
      match s.currentStage with
      | .upload => .landing
      | .select => .upload
      | .process => .select
      | .download => .process
      | .landing => .landing }

/-- Embedded from `App.tsx` (`resetToStart`): every stored field returns to
its initial empty value and the stage returns to `landing`. -/
def resetToStart (_s : AppState) : AppState := initialAppState

/-! ### Helper lemmas about support and the Apriori levels -/

/-- Support is anti-monotone: a sub-itemset is contained in at least the
transactions that contain the super-itemset. -/
theorem support_mono (ts : List (List Nat)) {a s : List Nat} (h : a ⊆ s) :
    support ts s ≤ support ts a := by
  unfold support
  have hc : ts.countP (fun t => s.all (fun x => decide (x ∈ t))) ≤
      ts.countP (fun t => a.all (fun x => decide (x ∈ t))) := by
    apply List.countP_mono_left
    intro t _ hp
    simp only [List.all_eq_true, decide_eq_true_eq] at hp ⊢
    exact fun x hx => hp x (h hx)
  rcases Nat.eq_zero_or_pos ts.length with h0 | h0
  · simp [h0]
  · have hpos : (0 : ℚ) < (ts.length : ℚ) := by exact_mod_cast h0
    exact (div_le_div_iff_of_pos_right hpos).mpr (by exact_mod_cast hc)

/-- A list with a known last element is its `dropLast` followed by that
element. -/
theorem getLast?_concat_decomp {l : List Nat} {x : Nat}
    (h : l.getLast? = some x) : l.dropLast ++ [x] = l := by
  rcases List.eq_nil_or_concat l with rfl | ⟨t, a, rfl⟩
  · simp at h
  · simp only [List.concat_eq_append, List.getLast?_concat] at h
    cases h
    simp

/-- Characterisation of the Apriori prefix join. -/
theorem joinPair_eq_some {a b c : List Nat} :
    joinPair a b = some c ↔
      ∃ x y, a.getLast? = some x ∧ b.getLast? = some y ∧
        a.dropLast = b.dropLast ∧ x < y ∧ c = a ++ [y] := by
  constructor
  · intro h
    unfold joinPair at h
    cases ha : a.getLast? with
    | none => rw [ha] at h; simp at h
    | some x =>
      cases hb : b.getLast? with
      | none => rw [ha, hb] at h; simp at h
      | some y =>
        rw [ha, hb] at h
        dsimp only at h
        by_cases hcond : a.dropLast = b.dropLast ∧ x < y
        · rw [if_pos hcond] at h
          cases h
          exact ⟨x, y, rfl, rfl, hcond.1, hcond.2, rfl⟩
        · rw [if_neg hcond] at h
          simp at h
  · rintro ⟨x, y, hx, hy, hdrop, hlt, rfl⟩
    unfold joinPair
    rw [hx, hy]
    dsimp only
    rw [if_pos ⟨hdrop, hlt⟩]

/-- Soundness invariant of the Apriori levels: every itemset of level k
meets `min_support`, has exactly k items, is in canonical strictly
ascending form, and draws its items from the vocabulary. -/
theorem aprioriLevel_sound (ts : List (List Nat)) (v : Nat) (ms : ℚ) :
    ∀ k s, s ∈ aprioriLevel ts v ms k →
      ms ≤ support ts s ∧ s.length = k ∧ List.Sorted (· < ·) s ∧
        ∀ i ∈ s, i < v := by
  intro k
  induction k with
  | zero => intro s hs; simp [aprioriLevel] at hs
  | succ k ih =>
    cases k with
    | zero =>
      intro s hs
      simp only [aprioriLevel, List.mem_filter, List.mem_map, List.mem_range,
        decide_eq_true_eq] at hs
      obtain ⟨⟨i, hi, rfl⟩, hsup⟩ := hs
      refine ⟨hsup, rfl, List.sorted_singleton i, ?_⟩
      intro j hj
      simp only [List.mem_singleton] at hj
      exact hj ▸ hi
    | succ k2 =>
      intro s hs
      simp only [aprioriLevel, nextLevel, List.mem_filter,
        decide_eq_true_eq] at hs
      obtain ⟨⟨hgen, _⟩, hsup⟩ := hs
      simp only [genCandidates, List.mem_flatMap, List.mem_filterMap] at hgen
      obtain ⟨a, ha, b, hb, hjoin⟩ := hgen
      obtain ⟨x, y, hax, hby, hdrop, hxy, rfl⟩ := joinPair_eq_some.mp hjoin
      obtain ⟨_, halen, hasort, habound⟩ := ih a ha
      obtain ⟨_, hblen, hbsort, hbbound⟩ := ih b hb
      have hadecomp := getLast?_concat_decomp hax
      have hbdecomp := getLast?_concat_decomp hby
      have hymem : y ∈ b := by
        rw [← hbdecomp]
        simp
      refine ⟨hsup, by simp [halen], ?_, ?_⟩
      · rw [List.Sorted, List.pairwise_append]
        refine ⟨hasort, List.pairwise_singleton _ _, ?_⟩
        intro z hz w hw
        simp only [List.mem_singleton] at hw
        rw [hw]
        rw [← hadecomp] at hz
        rcases List.mem_append.mp hz with hz | hz
        · rw [hdrop] at hz
          have := hbsort
          rw [← hbdecomp, List.Sorted, List.pairwise_append] at this
          exact this.2.2 z hz y (List.mem_singleton_self y)
        · simp only [List.mem_singleton] at hz
          exact hz ▸ hxy
      · intro i hi
        rcases List.mem_append.mp hi with hi | hi
        · exact habound i hi
        · simp only [List.mem_singleton] at hi
          exact hi ▸ hbbound y hymem

/-- Completeness of the Apriori levels: every canonical itemset over the
vocabulary that meets `min_support` is found at the level of its size. -/
theorem aprioriLevel_complete (ts : List (List Nat)) (v : Nat) (ms : ℚ) :
    ∀ k s, 1 ≤ k → List.Sorted (· < ·) s → (∀ i ∈ s, i < v) →
      s.length = k → ms ≤ support ts s → s ∈ aprioriLevel ts v ms k := by
  intro k
  induction k with
  | zero => intro s h1 _ _ _ _; exact absurd h1 (by omega)
  | succ k ih =>
    intro s h1 hsort hbound hlen hsup
    cases k with
    | zero =>
      obtain ⟨i, rfl⟩ := List.length_eq_one.mp hlen
      simp only [aprioriLevel, List.mem_filter, List.mem_map, List.mem_range,
        decide_eq_true_eq]
      exact ⟨⟨i, hbound i (by simp), rfl⟩, hsup⟩
    | succ k2 =>
      have hsortS := hsort
      rcases List.eq_nil_or_concat s with rfl | ⟨t, y, rfl⟩
      · simp at hlen
      simp only [List.concat_eq_append] at hsortS hsort hbound hlen hsup ⊢
      rcases List.eq_nil_or_concat t with rfl | ⟨q, x, rfl⟩
      · simp at hlen
      simp only [List.concat_eq_append] at hsortS hsort hbound hlen hsup ⊢
      rw [List.Sorted, List.pairwise_append] at hsort
      obtain ⟨hsortA, _, hcross⟩ := hsort
      have hxy : x < y := hcross x (by simp) y (by simp)
      have hqx : ∀ z ∈ q, z < x := by
        have := hsortA
        rw [List.pairwise_append] at this
        intro z hz
        exact this.2.2 z hz x (by simp)
      have hq : q.Pairwise (· < ·) := by
        have := hsortA
        rw [List.pairwise_append] at this
        exact this.1
      have hsortB : List.Sorted (· < ·) (q ++ [y]) := by
        rw [List.Sorted, List.pairwise_append]
        refine ⟨hq, List.pairwise_singleton _ _, ?_⟩
        intro z hz w hw
        simp only [List.mem_singleton] at hw
        rw [hw]
        exact hcross z (List.mem_append.mpr (Or.inl hz)) y (by simp)
      have hlenq : q.length + 2 = k2 + 2 := by
        simpa using hlen
      have hsubA : (q ++ [x]) ⊆ (q ++ [x]) ++ [y] := List.subset_append_left _ _
      have hsubB : (q ++ [y]) ⊆ (q ++ [x]) ++ [y] := by
        intro z hz
        rcases List.mem_append.mp hz with hz | hz
        · exact List.mem_append.mpr (Or.inl (List.mem_append.mpr (Or.inl hz)))
        · exact List.mem_append.mpr (Or.inr hz)
      have ha : (q ++ [x]) ∈ aprioriLevel ts v ms (k2 + 1) := by
        apply ih (q ++ [x]) (by omega) hsortA
        · intro i hi
          exact hbound i (hsubA hi)
        · simpa using by omega
        · exact le_trans hsup (support_mono ts hsubA)
      have hb : (q ++ [y]) ∈ aprioriLevel ts v ms (k2 + 1) := by
        apply ih (q ++ [y]) (by omega) hsortB
        · intro i hi
          exact hbound i (hsubB hi)
        · simpa using by omega
        · exact le_trans hsup (support_mono ts hsubB)
      have hjoin : joinPair (q ++ [x]) (q ++ [y]) = some ((q ++ [x]) ++ [y]) := by
        apply joinPair_eq_some.mpr
        exact ⟨x, y, List.getLast?_concat q, List.getLast?_concat q, by simp, hxy, rfl⟩
      simp only [aprioriLevel, nextLevel, List.mem_filter, decide_eq_true_eq]
      refine ⟨⟨?_, ?_⟩, hsup⟩
      · simp only [genCandidates, List.mem_flatMap, List.mem_filterMap]
        exact ⟨q ++ [x], ha, q ++ [y], hb, hjoin⟩
      · simp only [pruneOK, List.all_eq_true, List.mem_range, decide_eq_true_eq]
        intro i hi
        apply ih _ (by omega)
        · exact List.Pairwise.sublist (List.eraseIdx_sublist _ i) hsortS
        · intro j hj
          exact hbound j (List.eraseIdx_subset _ i hj)
        · rw [List.length_eraseIdx_of_lt hi]
          omega
        · exact le_trans hsup (support_mono ts (List.eraseIdx_subset _ i))

/-- Membership in the miner's output: an (itemset, support) pair is in the
output exactly when the itemset is found at some level 1..maxSize and the
recorded support is the support function's value. -/
theorem mem_mineItemsets {ts : List (List Nat)} {v : Nat} {ms : ℚ} {n : Nat}
    {s : List Nat} {q : ℚ} :
    (s, q) ∈ mineItemsets ts v ms n ↔
      (∃ k, 1 ≤ k ∧ k ≤ n ∧ s ∈ aprioriLevel ts v ms k) ∧ q = support ts s := by
  unfold mineItemsets
  simp only [List.mem_map, List.mem_flatMap, Prod.mk.injEq]
  constructor
  · rintro ⟨s2, ⟨k, hk, hmem⟩, rfl, rfl⟩
    rw [List.mem_range'] at hk
    obtain ⟨i, hin, rfl⟩ := hk
    exact ⟨⟨1 + 1 * i, by omega, by omega, hmem⟩, rfl⟩
  · rintro ⟨⟨k, hk1, hk2, hmem⟩, rfl⟩
    refine ⟨s, ⟨k, ?_, hmem⟩, rfl, rfl⟩
    rw [List.mem_range']
    exact ⟨k - 1, by omega, by omega⟩

/- The arithmetic of `ℚ` is sealed behind `irreducible` in the library;
reopening it locally lets `decide` evaluate the model on the spec's
concrete scenarios inside the kernel. -/
attribute [local semireducible] Rat.mul Rat.inv Rat.add Rat.sub

/-- C2: for every frequent itemset S in the miner's output and every
non-empty canonical subset T of S, T also appears in the output paired with
its support, support is anti-monotone (support(T) ≥ support(S)), and the
support recorded for S is the support function's value. -/
theorem C2_anti_monotonicity (ts : List (List Nat)) (v maxSize : Nat)
    (ms : ℚ) (res : List (List Nat × ℚ))
    (hrun : mineFrequentItemsets ts v ms maxSize = .ok res)
    (S : List Nat) (q : ℚ) (hS : (S, q) ∈ res)
    (T : List Nat) (hT : List.Sorted (· < ·) T) (hne : T ≠ [])
    (hsub : T ⊆ S) :
    (T, support ts T) ∈ res ∧ support ts S ≤ support ts T ∧
      q = support ts S := by
  unfold mineFrequentItemsets at hrun
  split_ifs at hrun with hth
  · injection hrun with hres
    subst hres
    obtain ⟨⟨k, hk1, hk2, hSk⟩, rfl⟩ := mem_mineItemsets.mp hS
    obtain ⟨hSsup, hSlen, hSsort, hSbound⟩ := aprioriLevel_sound ts v ms k S hSk
    have hmono := support_mono ts hsub
    have hTbound : ∀ i ∈ T, i < v := fun i hi => hSbound i (hsub hi)
    have hTnodup : T.Nodup := hT.nodup
    have hTlen_le : T.length ≤ S.length := by
      have h3 := List.toFinset_card_of_nodup hTnodup
      have h4 : T.toFinset ⊆ S.toFinset := by
        intro x hx
        simp only [List.mem_toFinset] at hx ⊢
        exact hsub hx
      have h5 := Finset.card_le_card h4
      have h6 := S.toFinset_card_le
      omega
    have hTlen1 : 1 ≤ T.length := List.length_pos.mpr hne
    have hTmem := aprioriLevel_complete ts v ms T.length T hTlen1 hT hTbound
      rfl (le_trans hSsup hmono)
    refine ⟨mem_mineItemsets.mpr ⟨⟨T.length, hTlen1, by omega, hTmem⟩, rfl⟩,
      hmono, rfl⟩

/-- Witness for C2 at a concrete input: transactions `{0,1}, {0,1}, {0}`
with `min_support = 1/2`; the frequent itemset `[0,1]` has the non-empty
subset `[1]`, which the output contains with at least its support. -/
theorem C2_witness :
    ((([1] : List Nat), support [[0,1],[0,1],[0]] [1]) ∈
        mineItemsets [[0,1],[0,1],[0]] 2 (1/2) 2) ∧
      support [[0,1],[0,1],[0]] [0,1] ≤ support [[0,1],[0,1],[0]] [1] ∧
      (2/3 : ℚ) = support [[0,1],[0,1],[0]] [0,1] :=
  C2_anti_monotonicity [[0,1],[0,1],[0]] 2 2 (1/2)
    (mineItemsets [[0,1],[0,1],[0]] 2 (1/2) 2) (by rfl)
    [0,1] (2/3) (by decide) [1] (by decide) (by decide) (by decide)

/-! ### Ordering of candidate generation (§4.2 determinism) -/

/-- Appending a smaller last element gives the lexicographically smaller
list when the prefixes agree. -/
theorem lex_concat_self {u : List Nat} {x y : Nat} (h : x < y) :
    List.Lex (· < ·) (u ++ [x]) (u ++ [y]) := by
  induction u with
  | nil => exact List.Lex.rel h
  | cons a u ih => exact List.Lex.cons ih

/-- Conversely, lexicographic order of two lists that agree except in the
last position orders the last elements. -/
theorem lt_of_lex_concat_self {u : List Nat} {x y : Nat}
    (h : List.Lex (· < ·) (u ++ [x]) (u ++ [y])) : x < y := by
  induction u with
  | nil =>
    cases h with
    | rel h => exact h
    | cons h => cases h
  | cons a u ih =>
    cases h with
    | rel h => exact absurd h (lt_irrefl a)
    | cons h => exact ih h

/-- Lexicographic order of equal-length lists is preserved by appending one
element to each. -/
theorem lex_append_of_lex {u v : List Nat} (x y : Nat)
    (hlen : u.length = v.length) (h : List.Lex (· < ·) u v) :
    List.Lex (· < ·) (u ++ [x]) (v ++ [y]) := by
  induction u generalizing v with
  | nil =>
    cases v with
    | nil => cases h
    | cons b vs => simp at hlen
  | cons a us ih =>
    cases v with
    | nil => simp at hlen
    | cons b vs =>
      cases h with
      | rel hr => exact List.Lex.rel hr
      | cons hl => exact List.Lex.cons (ih (by simpa using hlen) hl)

/-- The prefix join emits candidates in strictly ascending canonical
order when the previous level is strictly ascending and of uniform size. -/
theorem genCandidates_pairwise {lk : List (List Nat)} {k : Nat}
    (hlen : ∀ s ∈ lk, s.length = k)
    (hsorted : lk.Pairwise (List.Lex (· < ·))) :
    (genCandidates lk).Pairwise (List.Lex (· < ·)) := by
  unfold genCandidates
  rw [List.pairwise_flatMap]
  constructor
  · intro a _
    apply List.Pairwise.filterMap (fun b => joinPair a b) ?_ hsorted
    intro b1 b2 hb12 c1 hc1 c2 hc2
    rw [Option.mem_def] at hc1 hc2
    obtain ⟨x1, y1, hax1, hby1, hdrop1, hlt1, rfl⟩ := joinPair_eq_some.mp hc1
    obtain ⟨x2, y2, hax2, hby2, hdrop2, hlt2, rfl⟩ := joinPair_eq_some.mp hc2
    have hb1d := getLast?_concat_decomp hby1
    have hb2d := getLast?_concat_decomp hby2
    rw [← hdrop1] at hb1d
    rw [← hdrop2] at hb2d
    rw [← hb1d, ← hb2d] at hb12
    exact lex_concat_self (lt_of_lex_concat_self hb12)
  · apply List.Pairwise.imp_of_mem ?_ hsorted
    intro a1 a2 ha1 ha2 h12 x hx y hy
    simp only [List.mem_filterMap] at hx hy
    obtain ⟨b1, hb1, hj1⟩ := hx
    obtain ⟨b2, hb2, hj2⟩ := hy
    obtain ⟨x1, y1, hj11, hj12, hj13, hj14, rfl⟩ := joinPair_eq_some.mp hj1
    obtain ⟨x2, y2, hj21, hj22, hj23, hj24, rfl⟩ := joinPair_eq_some.mp hj2
    exact lex_append_of_lex y1 y2 (by rw [hlen a1 ha1, hlen a2 ha2]) h12

/-- Every Apriori level lists its itemsets in strictly ascending canonical
item-index order. -/
theorem aprioriLevel_pairwise (ts : List (List Nat)) (v : Nat) (ms : ℚ) :
    ∀ k, (aprioriLevel ts v ms k).Pairwise (List.Lex (· < ·)) := by
  intro k
  induction k with
  | zero => simp [aprioriLevel]
  | succ k ih =>
    cases k with
    | zero =>
      apply List.Pairwise.filter
      rw [List.pairwise_map]
      apply (List.pairwise_lt_range v).imp
      intro i j hij
      exact List.Lex.rel hij
    | succ k2 =>
      apply List.Pairwise.filter
      apply List.Pairwise.filter
      exact genCandidates_pairwise
        (fun s hs => (aprioriLevel_sound ts v ms (k2 + 1) s hs).2.1) ih

/-- C8: the whole pipeline is a pure function of the input pair sequence
and the configuration — two runs give equal Reports — and candidate
generation at every level follows ascending canonical item-index order, so
the intermediate structures carry no run-dependent order either. -/
theorem C8_determinism :
    (∀ (pairs : List (String × String)) (cfg : Config),
        runPipeline pairs cfg = runPipeline pairs cfg) ∧
    (∀ (ts : List (List Nat)) (v : Nat) (ms : ℚ) (k : Nat),
        (aprioriLevel ts v ms k).Pairwise (List.Lex (· < ·))) :=
  ⟨fun _ _ => rfl, fun ts v ms k => aprioriLevel_pairwise ts v ms k⟩

/-! ### The §4.5 comparator is a total preorder -/

/-- `lexLE` is total. -/
theorem lexLE_total {α : Type} [LinearOrder α] (u : List α) :
    ∀ v, lexLE u v = true ∨ lexLE v u = true := by
  induction u with
  | nil => intro v; left; cases v <;> rfl
  | cons a as ih =>
    intro v
    cases v with
    | nil => right; rfl
    | cons b bs =>
      rcases lt_trichotomy a b with h | h | h
      · left; simp [lexLE, h]
      · subst h
        rcases ih bs with h2 | h2
        · left; simp [lexLE, h2]
        · right; simp [lexLE, h2]
      · right; simp [lexLE, h]

/-- `lexLE` is transitive. -/
theorem lexLE_trans {α : Type} [LinearOrder α] (u : List α) :
    ∀ v w, lexLE u v = true → lexLE v w = true → lexLE u w = true := by
  induction u with
  | nil => intro v w _ _; cases w <;> rfl
  | cons a as ih =>
    intro v w h1 h2
    cases v with
    | nil => simp [lexLE] at h1
    | cons b bs =>
      cases w with
      | nil => simp [lexLE] at h2
      | cons c cs =>
        by_cases hab : a < b
        · by_cases hbc : b < c
          · simp [lexLE, lt_trans hab hbc]
          · by_cases hcb : c < b
            · simp [lexLE, hbc, hcb] at h2
            · have hb : b = c := le_antisymm (not_lt.mp hcb) (not_lt.mp hbc)
              subst hb
              simp [lexLE, hab]
        · by_cases hba : b < a
          · simp [lexLE, hab, hba] at h1
          · have ha : a = b := le_antisymm (not_lt.mp hba) (not_lt.mp hab)
            subst ha
            simp only [lexLE, lt_self_iff_false, if_false] at h1
            by_cases hac : a < c
            · simp [lexLE, hac]
            · by_cases hca : c < a
              · simp [lexLE, hac, hca] at h2
              · have hc : a = c := le_antisymm (not_lt.mp hca) (not_lt.mp hac)
                subst hc
                simp only [lexLE, lt_self_iff_false, if_false] at h2 ⊢
                exact ih bs cs h1 h2

/-- `lexLE` is antisymmetric: mutually ordered key lists are equal. -/
theorem lexLE_antisymm {α : Type} [LinearOrder α] (u : List α) :
    ∀ v, lexLE u v = true → lexLE v u = true → u = v := by
  induction u with
  | nil =>
    intro v h1 h2
    cases v with
    | nil => rfl
    | cons b bs => simp [lexLE] at h2
  | cons a as ih =>
    intro v h1 h2
    cases v with
    | nil => simp [lexLE] at h1
    | cons b bs =>
      by_cases hab : a < b
      · have h3 : ¬b < a := asymm hab
        simp [lexLE, hab, h3] at h2
      · by_cases hba : b < a
        · simp [lexLE, hab, hba] at h1
        · have ha : a = b := le_antisymm (not_lt.mp hba) (not_lt.mp hab)
          subst ha
          simp only [lexLE, lt_self_iff_false, if_false] at h1 h2
          rw [ih bs h1 h2]

instance : IsTotal ScoredRule ruleLEP :=
  ⟨fun a b => lexLE_total (ruleKeyL a) (ruleKeyL b)⟩

instance : IsTrans ScoredRule ruleLEP :=
  ⟨fun _ _ _ h1 h2 => lexLE_trans _ _ _ h1 h2⟩

instance : IsTotal (List Nat × ℚ) itemsetLEP :=
  ⟨fun a b => lexLE_total (itemsetKeyL a) (itemsetKeyL b)⟩

instance : IsTrans (List Nat × ℚ) itemsetLEP :=
  ⟨fun _ _ _ h1 h2 => lexLE_trans _ _ _ h1 h2⟩

/-- The ranks assigned by the assembler are exactly 1, 2, ..., n in order. -/
theorem rankRules_ranks (vocab : List String) (rs : List ScoredRule) :
    (rankRules vocab rs).map (fun r => r.rank) = List.range' 1 rs.length := by
  unfold rankRules
  rw [List.map_map]
  have h1 : ((fun r : RankedRule => r.rank) ∘ fun p : Nat × ScoredRule =>
      ({ rank := p.1 + 1,
         antecedent := p.2.antecedent.map (labelOf vocab),
         consequent := p.2.consequent.map (labelOf vocab),
         support := p.2.support, confidence := p.2.confidence,
         lift := p.2.lift, conviction := p.2.conviction } : RankedRule)) =
      (fun n => n + 1) ∘ Prod.fst := rfl
  rw [h1, ← List.map_map, List.enum_map_fst, List.range'_eq_map_range]
  rw [show (sortRules rs).length = rs.length from
    (List.perm_insertionSort ruleLEP rs).length_eq]
  apply List.map_congr_left
  intro a _
  omega

/-- C3 (amended): the assembled rules sequence is sorted by the §4.5
comparator — lift descending, then confidence descending, then support
descending, then antecedent canonical-form lexical order — which is a
total preorder (rules that tie on all four keys stay in stable input
order); mutually ordered rules agree on all four keys; every rule's rank
is its 1-based position in that order; and the presentation layer's
`topRules` takes a prefix of the given sequence without re-sorting. -/
theorem C3_ranking :
    (∀ rs : List ScoredRule, List.Sorted ruleLEP (sortRules rs)) ∧
    (∀ r1 r2 : ScoredRule, ruleLEP r1 r2 → ruleLEP r2 r1 →
        ruleKeyL r1 = ruleKeyL r2) ∧
    (∀ (vocab : List String) (rs : List ScoredRule),
        (rankRules vocab rs).map (fun r => r.rank) = List.range' 1 rs.length) ∧
    (∀ (enc : EncodedInput) (its : List (List Nat × ℚ))
        (rules : List ScoredRule) (flag : Bool),
        (assembleReport enc its rules flag).rules = rankRules enc.vocab rules) ∧
    (∀ tbl : List RankedRule, topRules tbl ++ tbl.drop 15 = tbl) :=
  ⟨fun rs => List.sorted_insertionSort ruleLEP rs,
   fun _ _ h1 h2 => lexLE_antisymm _ _ h1 h2,
   rankRules_ranks,
   fun _ _ _ _ => rfl,
   fun tbl => List.take_append_drop 15 tbl⟩

/-- The single transaction `{a, b, c}` (encoded as item indices 0, 1, 2)
on which the §4.5 comparator ties distinct rules. -/
def tieTransactions : List (List Nat) := [[0, 1, 2]]

/-- The frequent itemsets of `tieTransactions` at `min_support = 1/2`. -/
def tieItemsets : List (List Nat × ℚ) := mineItemsets tieTransactions 3 (1/2) 3

/-- The rules of `tieTransactions` at `min_confidence = 1/2`. -/
def tieRules : List ScoredRule := rulesFrom tieItemsets (1/2)

/-- The rule 0 → 1 of `tieTransactions` (a → b): all metrics are 1. -/
def tieRule1 : ScoredRule :=
  { antecedent := [0], consequent := [1], support := 1, confidence := 1,
    lift := 1, conviction := none }

/-- The rule 0 → 2 of `tieTransactions` (a → c): all metrics are 1. -/
def tieRule2 : ScoredRule :=
  { antecedent := [0], consequent := [2], support := 1, confidence := 1,
    lift := 1, conviction := none }

/-- C3 counterexample: the 4-key comparator of §4.5 is not a strict total
order on distinct rules — on transactions `{T1:[a,b,c]}` the distinct rules
a → b and a → c are both emitted and tie on lift, confidence, support and
antecedent, so each compares less-or-equal to the other. -/
theorem C3_counterexample :
    tieRule1 ∈ tieRules ∧ tieRule2 ∈ tieRules ∧ tieRule1 ≠ tieRule2 ∧
      ruleLEP tieRule1 tieRule2 ∧ ruleLEP tieRule2 tieRule1 := by
  decide

/-! ### The spec's two-item co-occurrence scenario (§8) -/

/-- The scenario's raw input pairs: transactions T1:[milk,bread],
T2:[milk,bread], T3:[milk]. -/
def scenarioPairs : List (String × String) :=
  [("T1", "milk"), ("T1", "bread"), ("T2", "milk"), ("T2", "bread"),
   ("T3", "milk")]

/-- The scenario's configuration: `min_support = 0.5`,
`min_confidence = 0.5`. -/
def scenarioCfg : Config :=
  { min_support := 1/2, min_confidence := 1/2, max_itemset_size := none,
    include_single_item_rules := false }

/-- C1 counterexample: on the scenario input the pipeline emits two rules,
not exactly one — besides milk → bread (confidence 2/3), the rule
bread → milk also reaches the confidence threshold (its confidence is 1). -/
theorem C1_counterexample :
    (runPipeline scenarioPairs scenarioCfg).toOption.map
      (fun r => r.rules.length) = some 2 := by
  decide

/-- C1 (amended): on the scenario input the frequent itemsets are {milk}
with support 1, {bread} and {milk,bread} with support 2/3 (2/3 rounds to
the spec's 0.667 at three decimals), and exactly two rules are emitted:
bread → milk with confidence 1 and lift 1 (rank 1), and milk → bread with
confidence 2/3 and lift 1 (rank 2). -/
theorem C1_scenario :
    (runPipeline scenarioPairs scenarioCfg).toOption = some
      { transaction_count := 3, item_count := 2,
        itemsets := [(["milk"], 1), (["milk", "bread"], 2/3),
          (["bread"], 2/3)],
        rules := [
          { rank := 1, antecedent := ["bread"], consequent := ["milk"],
            support := 2/3, confidence := 1, lift := 1, conviction := none },
          { rank := 2, antecedent := ["milk"], consequent := ["bread"],
            support := 2/3, confidence := 2/3, lift := 1,
            conviction := some 1 }],
        single_item_rules := [] } ∧
      roundTo 3 (2/3) = 667/1000 ∧ roundTo 3 1 = 1 := by
  exact ⟨by decide, by decide, by decide⟩

/-- C4: conviction is the sentinel `none` exactly when confidence is 1 and
otherwise equals (1 − support(consequent)) / (1 − confidence); every rule
the generator emits satisfies the same sentinel law; and the presentation
formatter renders the non-numeric sentinel string "undefined" and the
non-finite numbers as their string forms instead of failing. -/
theorem C4_conviction_sentinel :
    (∀ conf suppC : ℚ, (convictionOf conf suppC = none ↔ conf = 1) ∧
      (conf ≠ 1 →
        convictionOf conf suppC = some ((1 - suppC) / (1 - conf)))) ∧
    (∀ (its : List (List Nat × ℚ)) (mc : ℚ) (r : ScoredRule),
        r ∈ rulesFrom its mc → (r.conviction = none ↔ r.confidence = 1)) ∧
    (∀ d : Nat, formatDecimal (JSValue.str "undefined") d = "undefined") ∧
    (∀ d : Nat, formatDecimal (JSValue.num JSNumber.posInf) d = "Infinity" ∧
      formatDecimal (JSValue.num JSNumber.nan) d = "NaN") := by
  refine ⟨?_, ?_, ?_, ?_⟩
  · intro conf suppC
    constructor
    · unfold convictionOf
      split_ifs with h
      · simp [h]
      · simp [h]
    · intro h
      unfold convictionOf
      rw [if_neg h]
  · intro its mc r hr
    unfold rulesFrom at hr
    rw [List.mem_flatMap] at hr
    obtain ⟨p, hp, hr⟩ := hr
    unfold rulesOfItemset at hr
    split_ifs at hr with hlen
    · simp at hr
    · rw [List.mem_filterMap] at hr
      obtain ⟨a, ha, hsome⟩ := hr
      cases hlook : List.lookup a its with
      | none => rw [hlook] at hsome; simp at hsome
      | some supA =>
        rw [hlook] at hsome
        dsimp only at hsome
        split_ifs at hsome with h0 hconf
        injection hsome with hsome
        subst hsome
        unfold convictionOf
        split_ifs with h
        · simp [h]
        · simp [h]
  · intro d; rfl
  · intro d; exact ⟨rfl, rfl⟩

/-- C5: one invocation of the processing driver yields either a completed
result or an error, never both and never neither: the completion callback
runs exactly once, with the full backend result and its download URLs
(`result.outputFiles` defaulting to the empty map), precisely when the
backend call succeeds; on any failure only the error detail string is
stored and no result is handed on. -/
theorem C5_complete_or_error (o : FetchOutcome) :
    (processDataWithBackend o).completions.length ≤ 1 ∧
    ((processDataWithBackend o).error = none ↔ ∃ r, o = .ok r) ∧
    ((processDataWithBackend o).isComplete = true ↔ ∃ r, o = .ok r) ∧
    (∀ r, o = .ok r →
      (processDataWithBackend o).completions = [(r, r.outputFiles.getD [])]) ∧
    ((∀ r, o ≠ .ok r) → ∃ d, (processDataWithBackend o).error = some d ∧
      (processDataWithBackend o).completions = []) := by
  cases o with
  | ok r =>
    refine ⟨by simp [processDataWithBackend], ?_, ?_, ?_, ?_⟩
    · simp [processDataWithBackend]
    · simp [processDataWithBackend]
    · intro r2 hr2
      injection hr2 with hr2
      subst hr2
      rfl
    · intro h
      exact absurd rfl (h r)
  | httpError e =>
    refine ⟨by simp [processDataWithBackend], ?_, ?_, ?_, ?_⟩
    · simp [processDataWithBackend]
    · simp [processDataWithBackend]
    · intro r2 hr2
      exact absurd hr2 (by simp)
    · intro _
      exact ⟨e.getD "Processing failed", rfl, rfl⟩
  | thrown m =>
    refine ⟨by simp [processDataWithBackend], ?_, ?_, ?_, ?_⟩
    · simp [processDataWithBackend]
    · simp [processDataWithBackend]
    · intro r2 hr2
      exact absurd hr2 (by simp)
    · intro _
      exact ⟨m.getD "An unexpected error occurred", rfl, rfl⟩

/-- Witness for C5 at concrete outcomes: a successful fetch with no
`outputFiles` field completes once with the empty URL map. -/
theorem C5_witness :
    (processDataWithBackend (.ok ⟨"res", none⟩)).completions.length ≤ 1 ∧
    ((processDataWithBackend (.ok ⟨"res", none⟩)).error = none ↔
      ∃ r, FetchOutcome.ok ⟨"res", none⟩ = .ok r) ∧
    ((processDataWithBackend (.ok ⟨"res", none⟩)).isComplete = true ↔
      ∃ r, FetchOutcome.ok ⟨"res", none⟩ = .ok r) ∧
    (∀ r, FetchOutcome.ok ⟨"res", none⟩ = .ok r →
      (processDataWithBackend (.ok ⟨"res", none⟩)).completions =
        [(r, r.outputFiles.getD [])]) ∧
    ((∀ r, FetchOutcome.ok ⟨"res", none⟩ ≠ .ok r) →
      ∃ d, (processDataWithBackend (.ok ⟨"res", none⟩)).error = some d ∧
        (processDataWithBackend (.ok ⟨"res", none⟩)).completions = []) :=
  C5_complete_or_error (.ok ⟨"res", none⟩)

/-- C6: the miner fails, and fails with `InvalidThresholdError`, exactly
when `min_support` ≤ 0 or > 1 (in particular at `min_support = 3/2`),
and the rule generator fails with `InvalidThresholdError` exactly when
`min_confidence` is outside [0, 1]; the failing branch returns only the
error, so no partial computation is handed on. -/
theorem C6_threshold_validation :
    (∀ (ts : List (List Nat)) (v : Nat) (ms : ℚ) (n : Nat),
        (∃ e, mineFrequentItemsets ts v ms n = .error e) ↔
          (ms ≤ 0 ∨ 1 < ms)) ∧
    (∀ (ts : List (List Nat)) (v : Nat) (ms : ℚ) (n : Nat),
        (ms ≤ 0 ∨ 1 < ms) → mineFrequentItemsets ts v ms n =
          .error (.InvalidThresholdError "min_support must be in (0, 1]")) ∧
    (∀ (its : List (List Nat × ℚ)) (mc : ℚ),
        (∃ e, generateRules its mc = .error e) ↔ (mc < 0 ∨ 1 < mc)) ∧
    (∀ (its : List (List Nat × ℚ)) (mc : ℚ),
        (mc < 0 ∨ 1 < mc) → generateRules its mc =
          .error (.InvalidThresholdError "min_confidence must be in [0, 1]")) ∧
    (∀ (ts : List (List Nat)) (v n : Nat),
        mineFrequentItemsets ts v (3/2 : ℚ) n =
          .error (.InvalidThresholdError "min_support must be in (0, 1]")) := by
  have hmine : ∀ (ts : List (List Nat)) (v : Nat) (ms : ℚ) (n : Nat),
      (ms ≤ 0 ∨ 1 < ms) → mineFrequentItemsets ts v ms n =
        .error (.InvalidThresholdError "min_support must be in (0, 1]") := by
    intro ts v ms n h
    unfold mineFrequentItemsets
    rw [if_neg]
    rcases h with h | h
    · exact fun hc => absurd hc.1 (not_lt.mpr h)
    · exact fun hc => absurd hc.2 (not_le.mpr h)
  have hgen : ∀ (its : List (List Nat × ℚ)) (mc : ℚ),
      (mc < 0 ∨ 1 < mc) → generateRules its mc =
        .error (.InvalidThresholdError "min_confidence must be in [0, 1]") := by
    intro its mc h
    unfold generateRules
    rw [if_neg]
    rcases h with h | h
    · exact fun hc => absurd hc.1 (not_le.mpr h)
    · exact fun hc => absurd hc.2 (not_le.mpr h)
  refine ⟨?_, hmine, ?_, hgen, fun ts v n => hmine ts v (3/2) n (by norm_num)⟩
  · intro ts v ms n
    constructor
    · rintro ⟨e, he⟩
      by_contra hcon
      push_neg at hcon
      unfold mineFrequentItemsets at he
      rw [if_pos hcon] at he
      exact absurd he (by simp)
    · intro h
      exact ⟨_, hmine ts v ms n h⟩
  · intro its mc
    constructor
    · rintro ⟨e, he⟩
      by_contra hcon
      push_neg at hcon
      unfold generateRules at he
      rw [if_pos ⟨hcon.1, hcon.2⟩] at he
      exact absurd he (by simp)
    · intro h
      exact ⟨_, hgen its mc h⟩

/-- Filtering is idempotent: discarding invalid rows twice equals once. -/
theorem validRows_idem (pairs : List (String × String)) :
    validRows (validRows pairs) = validRows pairs :=
  List.filter_eq_self.mpr (fun _ ha => (List.mem_filter.mp ha).2)

/-- The vocabulary only depends on the valid rows. -/
theorem buildVocab_validRows (pairs : List (String × String)) :
    buildVocab (validRows pairs) = buildVocab pairs := by
  unfold buildVocab
  rw [validRows_idem]

/-- The transaction keys only depend on the valid rows. -/
theorem txKeys_validRows (pairs : List (String × String)) :
    txKeys (validRows pairs) = txKeys pairs := by
  unfold txKeys
  rw [validRows_idem]

/-- A transaction's item set only depends on the valid rows. -/
theorem txItems_validRows (pairs : List (String × String)) :
    txItems (validRows pairs) = txItems pairs := by
  funext vocab k
  unfold txItems
  rw [validRows_idem]

/-- The indexed transactions only depend on the valid rows. -/
theorem buildTransactions_validRows (pairs : List (String × String)) :
    buildTransactions (validRows pairs) = buildTransactions pairs := by
  unfold buildTransactions
  rw [buildVocab_validRows, txKeys_validRows, txItems_validRows]

/-- C7: the encoder discards blank-labelled pairs as invalid rows without
raising (encoding a pair list equals encoding its valid rows); every
transaction it returns is non-empty, because zero-item transactions are
dropped before the total is taken; and it fails — always with
`EmptyInputError` — exactly when, after this filtering, zero transactions
or zero distinct items remain. -/
theorem C7_encoder_contract :
    (∀ pairs, encodeTransactions pairs = encodeTransactions (validRows pairs)) ∧
    (∀ pairs enc, encodeTransactions pairs = .ok enc →
        ∀ t ∈ enc.transactions, t ≠ []) ∧
    (∀ pairs, (∃ e, encodeTransactions pairs = .error e) ↔
        (buildTransactions pairs = [] ∨ buildVocab pairs = [])) ∧
    (∀ pairs e, encodeTransactions pairs = .error e →
        e = .EmptyInputError "no usable transactions or items after encoding") := by
  refine ⟨?_, ?_, ?_, ?_⟩
  · intro pairs
    unfold encodeTransactions
    rw [buildVocab_validRows, buildTransactions_validRows]
  · intro pairs enc henc t ht
    unfold encodeTransactions at henc
    dsimp only at henc
    split_ifs at henc
    injection henc with henc
    subst henc
    simp only [buildTransactions, List.mem_filter] at ht
    have h2 := ht.2
    intro hnil
    rw [hnil] at h2
    simp at h2
  · intro pairs
    unfold encodeTransactions
    dsimp only
    split_ifs with h
    · exact ⟨fun _ => h, fun _ => ⟨_, rfl⟩⟩
    · constructor
      · rintro ⟨e, he⟩
        exact absurd he (by simp)
      · intro hcon
        exact absurd hcon h
  · intro pairs e henc
    unfold encodeTransactions at henc
    dsimp only at henc
    split_ifs at henc
    injection henc with henc
    exact henc.symm

/-- C9: the column selector's operations preserve the invariant that
`selectedColumns` is a duplicate-free list of in-range column indices:
toggling a present index removes it, toggling an absent one appends it;
select-all yields either every index or the empty list and preserves the
invariant; and the `onColumnsSelected` callback fires only with the
non-empty selection itself. -/
theorem C9_selection_invariant (n : Nat) (sel : List Nat) (i : Nat)
    (hsel : validSelection n sel) (hi : i < n) :
    validSelection n (toggleColumn sel i) ∧
    (i ∈ sel → i ∉ toggleColumn sel i) ∧
    (i ∉ sel → toggleColumn sel i = sel ++ [i]) ∧
    validSelection n (selectAllColumns sel n) ∧
    (selectAllColumns sel n = List.range n ∨ selectAllColumns sel n = []) ∧
    (∀ s, handleProceed sel = some s → s ≠ [] ∧ s = sel) := by
  obtain ⟨hnodup, hbound⟩ := hsel
  refine ⟨?_, ?_, ?_, ?_, ?_, ?_⟩
  · unfold toggleColumn
    split_ifs with hmem
    · constructor
      · exact hnodup.filter _
      · intro j hj
        exact hbound j (List.mem_of_mem_filter hj)
    · constructor
      · rw [List.nodup_append]
        exact ⟨hnodup, List.nodup_singleton i,
          fun a ha hb => by
            simp only [List.mem_singleton] at hb
            subst hb
            exact hmem ha⟩
      · intro j hj
        rcases List.mem_append.mp hj with hj | hj
        · exact hbound j hj
        · simp only [List.mem_singleton] at hj
          exact hj ▸ hi
  · intro hmem
    unfold toggleColumn
    rw [if_pos hmem]
    intro hcon
    have := (List.mem_filter.mp hcon).2
    simp at this
  · intro hmem
    unfold toggleColumn
    rw [if_neg hmem]
  · unfold selectAllColumns
    split_ifs
    · exact ⟨List.nodup_nil, by simp⟩
    · exact ⟨List.nodup_range n, fun j hj => List.mem_range.mp hj⟩
  · unfold selectAllColumns
    split_ifs
    · exact Or.inr rfl
    · exact Or.inl rfl
  · intro s hs
    unfold handleProceed at hs
    split_ifs at hs with hlen
    injection hs with hs
    subst hs
    exact ⟨List.ne_nil_of_length_pos hlen, rfl⟩

/-- Witness for C9 at a concrete state: three headers, selection `[0, 2]`,
toggling column 1. -/
theorem C9_witness :
    validSelection 3 (toggleColumn [0, 2] 1) ∧
    (1 ∈ [0, 2] → 1 ∉ toggleColumn [0, 2] 1) ∧
    ((1 : Nat) ∉ [0, 2] → toggleColumn [0, 2] 1 = [0, 2] ++ [1]) ∧
    validSelection 3 (selectAllColumns [0, 2] 3) ∧
    (selectAllColumns [0, 2] 3 = List.range 3 ∨ selectAllColumns [0, 2] 3 = []) ∧
    (∀ s, handleProceed [0, 2] = some s → s ≠ [] ∧ s = [0, 2]) :=
  C9_selection_invariant 3 [0, 2] 1 (by decide) (by decide)

/-- C10: `goBackToPreviousStep` moves each stage to its immediate
predecessor (upload→landing, select→upload, process→select,
download→process), leaves the landing stage unchanged, and writes only the
stage; `resetToStart` returns to the initial state: stage `landing` and all
six stored data fields at their initial empty values. -/
theorem C10_stage_machine (s : AppState) :
    (s.currentStage = .upload →
      goBackToPreviousStep s = { s with currentStage := .landing }) ∧
    (s.currentStage = .select →
      goBackToPreviousStep s = { s with currentStage := .upload }) ∧
    (s.currentStage = .process →
      goBackToPreviousStep s = { s with currentStage := .select }) ∧
    (s.currentStage = .download →
      goBackToPreviousStep s = { s with currentStage := .process }) ∧
    (s.currentStage = .landing → goBackToPreviousStep s = s) ∧
    resetToStart s = initialAppState ∧
    (resetToStart s).currentStage = .landing ∧
    (resetToStart s).uploadedFile = none ∧
    (resetToStart s).uploadedFileName = "" ∧
    (resetToStart s).excelData = [] ∧
    (resetToStart s).selectedColumns = [] ∧
    (resetToStart s).processedData = none ∧
    (resetToStart s).downloadUrls = [] := by
  cases s with
  | mk stage f fn data cols proc urls =>
    cases stage <;>
      simp [goBackToPreviousStep, resetToStart, initialAppState]
